import Mathlib

/-!
Shallow embedding of the Huffman codec from `src/src/huffman.rs` and
`src/src/main.rs`.

Modelling conventions:
* Rust `u8` values are `Nat` (all values produced by the program are `< 256`;
  hypotheses record this where it matters).
* Rust bit strings (`String` of ASCII 0/1, `Vec<bool>`, `&[bool]`) are
  `List Bool`.
* Rust panics / index-out-of-bounds / `unwrap` failures are `Option.none`.
* Rust loops whose termination is not structural are modelled with an explicit
  fuel argument, instantiated at each call site with a bound that is large
  enough for every execution on which the Rust code terminates normally; on
  inputs where the Rust code would diverge or panic the model returns `none`.
  Fuel-structural definitions keep every function kernel-computable.
-/

inductive HuffmanNode where
  | Leaf (val : Nat) (count : Nat)
  | Node (left : HuffmanNode) (right : HuffmanNode)
deriving DecidableEq, Repr

namespace HuffmanNode

/-- Rust `impl PartialEq for HuffmanNode`: compares shape and leaf symbols,
ignoring the `count` fields. -/
def beqNode : HuffmanNode → HuffmanNode → Bool
  | Leaf v1 _, Leaf v2 _ => v1 == v2
  | Node l1 r1, Node l2 r2 => beqNode l1 l2 && beqNode r1 r2
  | _, _ => false

/-- Rust `HuffmanNode::get_usage`. -/
def get_usage : HuffmanNode → Nat
  | Leaf _ count => count
  | Node l r => get_usage l + get_usage r

/-- Rust `HuffmanNode::get_depth`. -/
def get_depth : HuffmanNode → Nat
  | Leaf _ _ => 1
  | Node l r => max (get_depth l) (get_depth r) + 1

/-- Number of leaves of a tree (used for bounds; not in the Rust source). -/
def countLeaves : HuffmanNode → Nat
  | Leaf _ _ => 1
  | Node l r => countLeaves l + countLeaves r

/-- Leaf symbols in left-to-right order (used for bounds; not in the Rust
source). -/
def leafVals : HuffmanNode → List Nat
  | Leaf v _ => [v]
  | Node l r => leafVals l ++ leafVals r

/-- Number of nodes of a tree (used as a fuel bound). -/
def size : HuffmanNode → Nat
  | Leaf _ _ => 1
  | Node l r => size l + size r + 1

/-- The tree with every leaf count replaced by `0`, as rebuilt by
`decode_tree` (which stores `count: 0` in every reconstructed leaf). -/
def strip : HuffmanNode → HuffmanNode
  | Leaf v _ => Leaf v 0
  | Node l r => Node (strip l) (strip r)

/-- The seeding loop of Rust `build_tree`: one `Leaf` per byte value with a
nonzero occurrence count, in ascending byte-value order.  The Rust code counts
into a 256-entry array indexed by the `u8` value; `List.count` plays the role
of the array. -/
def initialTrees (items : List Nat) : List HuffmanNode :=
  (List.range 256).filterMap (fun i =>
    if 0 < items.count i then some (Leaf i (items.count i)) else none)

/-- Rust `trees.sort_by(|a, b| b.get_usage().cmp(&a.get_usage()))`: a stable
sort by descending usage.  Rust `sort_by` is stable, and any two stable sorts
with the same key agree extensionally; Mathlib insertion sort with this
relation is stable in the same sense (earlier elements stay before equal-usage
later elements). -/
def sortDesc (trees : List HuffmanNode) : List HuffmanNode :=
  List.insertionSort (fun a b => get_usage b ≤ get_usage a) trees

/-- One iteration of the merging loop of Rust `build_tree`: sort descending,
pop the two lowest-usage trees `a` (popped first, the minimum) and `b`, and
push `Node { left: a, right: b }` at the end.  The list is kept in the same
orientation as the Rust `Vec`; popping from the tail is phrased through
`reverse`.  The fallthrough branch is unreachable under the loop guard
(`trees.len() > 1`). -/
def step (trees : List HuffmanNode) : List HuffmanNode :=
  match (sortDesc trees).reverse with
  | a :: b :: rest => (Node a b :: rest).reverse
  | _ => sortDesc trees

/-- The `while trees.len() > 1` loop of Rust `build_tree`.  Each real
iteration shrinks the list by one, so fuel `trees.length` is enough for every
execution. -/
def mergeLoopAux : Nat → List HuffmanNode → List HuffmanNode
  | 0, trees => trees
  | fuel + 1, trees =>
    if trees.length > 1 then mergeLoopAux fuel (step trees) else trees

/-- Rust `HuffmanNode::build_tree`.  `none` models the two panics (empty
input; a single remaining leaf). -/
def build_tree (items : List Nat) : Option HuffmanNode :=
  if items.isEmpty then none
  else
    match mergeLoopAux (initialTrees items).length (initialTrees items) with
    | [Leaf _ _] => none
    | [t] => some t
    | _ => none

/-- Rust `HuffmanNode::encode`: depth-first search for the first leaf holding
`n`, returning the root-to-leaf path (`false` = left/0, `true` = right/1). -/
def encode : HuffmanNode → Nat → Option (List Bool)
  | Leaf val _, n => if val == n then some [] else none
  | Node l r, n =>
    match encode l n with
    | some s => some (false :: s)
    | none =>
      match encode r n with
      | some s => some (true :: s)
      | none => none

/-- Rust `HuffmanNode::in_order_traversal`: every leaf paired with its
root-to-leaf path, left subtree before right subtree. -/
def in_order_traversal : HuffmanNode → List Bool → List (Nat × List Bool)
  | Leaf val _, pre => [(val, pre)]
  | Node l r, pre =>
    in_order_traversal l (pre ++ [false]) ++ in_order_traversal r (pre ++ [true])

end HuffmanNode

/-- Big-endian binary digits of `n` with no leading zeros (`[]` for `0`),
the digit list behind Rust `format!("{:b}", n)`.  Fuel-structural; fuel `n`
covers all `n` since the argument at least halves each step. -/
def natBinAux : Nat → Nat → List Bool
  | 0, _ => []
  | _ + 1, 0 => []
  | fuel + 1, n + 1 => natBinAux fuel ((n + 1) / 2) ++ [(n + 1) % 2 == 1]

def natBin (n : Nat) : List Bool := natBinAux n n

/-- Rust `format!("{:08b}", n)` as a bit list: binary digits of `n`
left-padded with zeros to at least 8 digits (more than 8 digits are kept as
is, exactly as the Rust format specifier behaves for `n ≥ 256`). -/
def bits8 (n : Nat) : List Bool :=
  List.replicate (8 - (natBin n).length) false ++ natBin n

namespace HuffmanNode

/-- Rust `HuffmanNode::serialize_tree`: for each leaf of the in-order
traversal emit `{:08b}` of the code length then `{:08b}` of the symbol, and
append the eight-zero terminator. -/
def serialize_tree (t : HuffmanNode) : List Bool :=
  ((in_order_traversal t []).flatMap (fun p => bits8 p.2.length ++ bits8 p.1))
    ++ List.replicate 8 false

end HuffmanNode

/-- The per-chunk fold of Rust `serialize`: accumulate the up-to-8 bits
most-significant first, then left-shift by the number of missing bits.  The
`u8` arithmetic never wraps because at most 8 bits enter the byte. -/
def bitsToByte (chunk : List Bool) : Nat :=
  (chunk.foldl (fun acc b => 2 * acc + (if b then 1 else 0)) 0)
    * 2 ^ (8 - chunk.length)

/-- Rust `total.as_bytes().chunks(8).map(...)`: split into chunks of 8 and
pack each.  Fuel-structural; each iteration consumes at least one bit, so
fuel `bits.length` is enough. -/
def packAux : Nat → List Bool → List Nat
  | 0, _ => []
  | _ + 1, [] => []
  | fuel + 1, b :: bits =>
    bitsToByte ((b :: bits).take 8) :: packAux fuel ((b :: bits).drop 8)

def pack (bits : List Bool) : List Nat := packAux bits.length bits

namespace HuffmanNode

/-- The payload part of Rust `serialize`:
`s.iter().map(|n| self.encode(*n).unwrap()).fold("", +)` — encode every
symbol and concatenate the codes in order; `none` models the `unwrap` panic
when some symbol has no code in the tree. -/
def encodeAll (t : HuffmanNode) : List Nat → Option (List Bool)
  | [] => some []
  | n :: ns => do
    let c ← t.encode n
    let rest ← encodeAll t ns
    return c ++ rest

/-- Rust `HuffmanNode::serialize`: tree descriptor bits, then the
concatenated per-symbol codes, packed into bytes. -/
def serialize (t : HuffmanNode) (s : List Nat) : Option (List Nat) :=
  (encodeAll t s).map (fun enc => pack (serialize_tree t ++ enc))

end HuffmanNode

/-- The bit expansion in Rust `decode`:
`(0..8).map(|i| (n >> (7 - i)) & 1 == 1)`, most significant bit first. -/
def byteToBits (n : Nat) : List Bool :=
  (List.range 8).map (fun i => (n >>> (7 - i)) &&& 1 == 1)

/-- The nested `get_byte` of Rust `decode_tree`: read up to 8 bits, setting
bit `7 - i` of the result for each set bit `i`. -/
def get_byte (input : List Bool) : Nat :=
  ((input.take 8).enum).foldl
    (fun byte p => if p.2 then byte ||| (1 <<< (7 - p.1)) else byte) 0

/-- The `CodePoint` struct nested in Rust `decode_tree`. -/
structure CodePoint where
  len : Nat
  data : Nat
deriving DecidableEq, Repr

/-- The scanning loop of Rust `decode_tree`: while the next byte is nonzero,
read a length byte and a symbol byte; finally skip the zero terminator.
Fuel-structural: each iteration consumes at least one bit (a nonzero
`get_byte` needs a nonempty input), so fuel `input.length + 1` is enough. -/
def scanCodesAux : Nat → List Bool → List CodePoint × List Bool
  | 0, input => ([], input.drop 8)
  | fuel + 1, input =>
    if get_byte input == 0 then ([], input.drop 8)
    else
      let len := get_byte input
      let input1 := input.drop 8
      let d := get_byte input1
      let input2 := input1.drop 8
      let (cps, rest) := scanCodesAux fuel input2
      (⟨len, d⟩ :: cps, rest)

namespace HuffmanNode

/-- The nested `build_tree` of Rust `decode_tree`: rebuild the tree from the
ordered CodePoint list with a shared cursor (modelled by returning the
unconsumed suffix).  `none` models the out-of-bounds panic when the list runs
out, and fuel exhaustion models the `u8` depth counter overflowing on
malformed descriptors (on well-formed descriptors the needed fuel is bounded
by the tree size, below the fuel supplied at the call site). -/
def decodeTreeAux : Nat → List CodePoint → Nat → Option (HuffmanNode × List CodePoint)
  | 0, _, _ => none
  | _ + 1, [], _ => none
  | fuel + 1, c :: rest, depth =>
    if c.len == depth then some (Leaf c.data 0, rest)
    else do
      let (l, rest1) ← decodeTreeAux fuel (c :: rest) (depth + 1)
      let (r, rest2) ← decodeTreeAux fuel rest1 (depth + 1)
      return (Node l r, rest2)

/-- Rust `HuffmanNode::decode_tree`: scan the CodePoints, then rebuild the
tree starting at depth 0; the cursor position after the descriptor is
returned alongside the tree. -/
def decode_tree (input : List Bool) : Option (HuffmanNode × List Bool) :=
  let (codes, rest) := scanCodesAux (input.length + 1) input
  (decodeTreeAux (2 * codes.length + 1) codes 0).map (fun p => (p.1, rest))

/-- Rust `HuffmanNode::decode_item`: walk the tree along the bits (0 = left,
1 = right) until a leaf; the bit looked at when a leaf is reached is NOT
consumed.  The Rust code reads `input[0]` before inspecting the node, so an
empty input panics (`none`) even at a leaf. -/
def decode_item : HuffmanNode → List Bool → Option (Nat × List Bool)
  | _, [] => none
  | Leaf val _, b :: rest => some (val, b :: rest)
  | Node l r, b :: rest => decode_item (if b then r else l) rest

/-- The payload loop of Rust `decode`: while more than one bit remains,
decode one symbol; stop on the zero sentinel (dropping it), otherwise append
the symbol.  Fuel-structural: with an internal-node root every iteration
consumes at least one bit, so fuel `input.length + 1` is enough; a
leaf-rooted tree would loop forever in Rust and exhausts the fuel here. -/
def decodeLoop (t : HuffmanNode) : Nat → List Bool → Option (List Nat)
  | 0, _ => none
  | fuel + 1, input =>
    if input.length > 1 then
      match decode_item t input with
      | none => none
      | some (item, inp) =>
        if item == 0 then some []
        else (decodeLoop t fuel inp).map (fun items => item :: items)
    else some []

/-- Rust `HuffmanNode::decode`: expand the bytes to bits (most significant
first) with one guard `false` appended, parse the tree, then run the payload
loop. -/
def decode (input : List Nat) : Option (HuffmanNode × List Nat) :=
  (decode_tree ((input.flatMap byteToBits) ++ [false])).bind
    (fun p => (decodeLoop p.1 (p.2.length + 1) p.2).map (fun items => (p.1, items)))

end HuffmanNode

/-- Rust `fn encode` in `main.rs`: append the zero sentinel byte, build the
tree over the extended input, and serialize. -/
def Main.encode (input : List Nat) : Option (List Nat) :=
  (HuffmanNode.build_tree (input ++ [0])).bind
    (fun t => HuffmanNode.serialize t (input ++ [0]))

/-- Rust `fn decode` in `main.rs`: run the codec decoder and keep the
recovered byte sequence (the UTF-8 re-validation of the surrounding I/O
layer is outside the codec). -/
def Main.decode (input : List Nat) : Option (List Nat) :=
  (HuffmanNode.decode input).map (fun p => p.2)

/-- Modelled from the spec (section 4.3 step 1 words): the ordered CodePoint
sequence is produced by one depth-first, left-before-right traversal of the
tree, recording for every leaf its (code length, symbol) pair, where the code
length is the depth of the leaf.  Used to compare the descriptor the code
emits against the one the spec describes. -/
def specLeaves : HuffmanNode → Nat → List (Nat × Nat)
  | HuffmanNode.Leaf v _, depth => [(depth, v)]
  | HuffmanNode.Node l r, depth =>
    specLeaves l (depth + 1) ++ specLeaves r (depth + 1)

/-- Modelled from the spec (section 4.4 step 4 words): repeatedly walk the
tree from the root along the cursor bits, yielding one symbol per walk; stop
when (a) the decoded symbol is the zero-value sentinel, which is excluded
from the output, or (b) fewer than 2 bits remain in the cursor; every other
decoded symbol is appended to the output in decoding order.  The walk itself
is the shared `decode_item`; the same fuel convention as `decodeLoop` keeps
the function total. -/
def specPayloadLoop (t : HuffmanNode) : Nat → List Bool → Option (List Nat)
  | 0, _ => none
  | fuel + 1, cursor =>
    if cursor.length < 2 then some []
    else
      match HuffmanNode.decode_item t cursor with
      | none => none
      | some (sym, cursor2) =>
        if sym == 0 then some []
        else (specPayloadLoop t fuel cursor2).map (fun out => sym :: out)
/-! ### Bit-level lemmas -/

set_option maxRecDepth 40000

theorem bits8_length : ∀ n < 256, (bits8 n).length = 8 := by decide

theorem byteToBits_eq_bits8 : ∀ n < 256, byteToBits n = bits8 n := by decide

theorem get_byte_bits8 : ∀ n < 256, get_byte (bits8 n) = n := by decide

theorem get_byte_zeros8 : get_byte (List.replicate 8 false) = 0 := by decide

theorem get_byte_append (l rest : List Bool) (h : l.length = 8) :
    get_byte (l ++ rest) = get_byte l := by
  unfold get_byte
  rw [show (8 : Nat) = l.length from h.symm, List.take_left,
    List.take_of_length_le (by omega)]

theorem byteToBits_bitsToByte (chunk : List Bool) (h : chunk.length ≤ 8) :
    byteToBits (bitsToByte chunk) = chunk ++ List.replicate (8 - chunk.length) false := by
  match chunk, h with
  | [], _ => decide
  | [a1], _ => revert a1; decide
  | [a1, a2], _ => revert a1 a2; decide
  | [a1, a2, a3], _ => revert a1 a2 a3; decide
  | [a1, a2, a3, a4], _ => revert a1 a2 a3 a4; decide
  | [a1, a2, a3, a4, a5], _ => revert a1 a2 a3 a4 a5; decide
  | [a1, a2, a3, a4, a5, a6], _ => revert a1 a2 a3 a4 a5 a6; decide
  | [a1, a2, a3, a4, a5, a6, a7], _ => revert a1 a2 a3 a4 a5 a6 a7; decide
  | [a1, a2, a3, a4, a5, a6, a7, a8], _ => revert a1 a2 a3 a4 a5 a6 a7 a8; decide
  | a1 :: a2 :: a3 :: a4 :: a5 :: a6 :: a7 :: a8 :: a9 :: rest, hh =>
    simp only [List.length_cons] at hh
    omega

theorem packAux_nil : ∀ fuel, packAux fuel [] = [] := by
  intro fuel; cases fuel <;> rfl

theorem unpack_packAux : ∀ fuel bits, bits.length ≤ fuel →
    (packAux fuel bits).flatMap byteToBits
      = bits ++ List.replicate ((8 - bits.length % 8) % 8) false := by
  intro fuel
  induction fuel with
  | zero =>
    intro bits h
    have : bits = [] := List.eq_nil_of_length_eq_zero (by omega)
    subst this; simp [packAux]
  | succ fuel ih =>
    intro bits h
    match bits, h with
    | [], _ => simp [packAux]
    | b :: bs, h =>
      rw [packAux, List.flatMap_cons,
        byteToBits_bitsToByte _ (by simp only [List.length_take]; omega)]
      simp only [List.length_cons] at h
      by_cases hlen : bs.length + 1 ≤ 8
      · rw [List.drop_eq_nil_of_le (by simp only [List.length_cons]; omega),
          packAux_nil, List.flatMap_nil,
          List.take_of_length_le (by simp only [List.length_cons]; omega),
          List.append_nil]
        have hrep : 8 - (b :: bs).length = (8 - (b :: bs).length % 8) % 8 := by
          simp only [List.length_cons]; omega
        rw [hrep]
      · push_neg at hlen
        rw [ih ((b :: bs).drop 8)
          (by simp only [List.length_drop, List.length_cons]; omega)]
        have ht : ((b :: bs).take 8).length = 8 := by
          simp only [List.length_take, List.length_cons]; omega
        rw [ht]
        simp only [Nat.sub_self, List.replicate_zero, List.append_nil]
        rw [← List.append_assoc, List.take_append_drop]
        have hrep : (8 - ((b :: bs).drop 8).length % 8) % 8
            = (8 - (b :: bs).length % 8) % 8 := by
          simp only [List.length_drop, List.length_cons]; omega
        rw [hrep]

theorem packAux_length : ∀ fuel bits, bits.length ≤ fuel →
    (packAux fuel bits).length = (bits.length + 7) / 8 := by
  intro fuel
  induction fuel with
  | zero =>
    intro bits h
    have : bits = [] := List.eq_nil_of_length_eq_zero (by omega)
    subst this; simp [packAux]
  | succ fuel ih =>
    intro bits h
    match bits, h with
    | [], _ => simp [packAux]
    | b :: bs, h =>
      rw [packAux, List.length_cons]
      simp only [List.length_cons] at h
      by_cases hlen : bs.length + 1 ≤ 8
      · rw [List.drop_eq_nil_of_le (by simp only [List.length_cons]; omega),
          packAux_nil]
        simp only [List.length_nil, List.length_cons]
        omega
      · push_neg at hlen
        rw [ih ((b :: bs).drop 8)
          (by simp only [List.length_drop, List.length_cons]; omega)]
        simp only [List.length_drop, List.length_cons]
        omega

theorem unpack_pack (bits : List Bool) :
    (pack bits).flatMap byteToBits
      = bits ++ List.replicate ((8 - bits.length % 8) % 8) false :=
  unpack_packAux bits.length bits (Nat.le_refl _)

theorem pack_length (bits : List Bool) :
    (pack bits).length = (bits.length + 7) / 8 :=
  packAux_length bits.length bits (Nat.le_refl _)

/-! ### Traversal lemmas -/

namespace HuffmanNode

theorem countLeaves_pos (t : HuffmanNode) : 1 ≤ countLeaves t := by
  induction t with
  | Leaf v c => simp [countLeaves]
  | Node l r ihl ihr => simp [countLeaves]; omega

theorem size_pos (t : HuffmanNode) : 1 ≤ size t := by
  cases t <;> simp [size]

theorem size_eq (t : HuffmanNode) : size t + 1 = 2 * countLeaves t := by
  induction t with
  | Leaf v c => simp [size, countLeaves]
  | Node l r ihl ihr => simp [size, countLeaves]; omega

theorem trav_ne_nil (t : HuffmanNode) (pre : List Bool) :
    in_order_traversal t pre ≠ [] := by
  induction t generalizing pre with
  | Leaf v c => simp [in_order_traversal]
  | Node l r ihl ihr =>
    simp only [in_order_traversal, ne_eq, List.append_eq_nil]
    intro ⟨h1, _⟩
    exact ihl _ h1

theorem trav_length (t : HuffmanNode) (pre : List Bool) :
    (in_order_traversal t pre).length = countLeaves t := by
  induction t generalizing pre with
  | Leaf v c => simp [in_order_traversal, countLeaves]
  | Node l r ihl ihr =>
    simp [in_order_traversal, countLeaves, ihl, ihr]

theorem trav_code_ge (t : HuffmanNode) (pre : List Bool) :
    ∀ p ∈ in_order_traversal t pre, pre.length ≤ p.2.length := by
  induction t generalizing pre with
  | Leaf v c => simp [in_order_traversal]
  | Node l r ihl ihr =>
    intro p hp
    simp only [in_order_traversal, List.mem_append] at hp
    rcases hp with hp | hp
    · have := ihl (pre ++ [false]) p hp
      simp only [List.length_append, List.length_cons, List.length_nil] at this
      omega
    · have := ihr (pre ++ [true]) p hp
      simp only [List.length_append, List.length_cons, List.length_nil] at this
      omega

theorem trav_code_ge_node (l r : HuffmanNode) (pre : List Bool) :
    ∀ p ∈ in_order_traversal (Node l r) pre, pre.length + 1 ≤ p.2.length := by
  intro p hp
  simp only [in_order_traversal, List.mem_append] at hp
  rcases hp with hp | hp
  · have := trav_code_ge l (pre ++ [false]) p hp
    simp only [List.length_append, List.length_cons, List.length_nil] at this
    omega
  · have := trav_code_ge r (pre ++ [true]) p hp
    simp only [List.length_append, List.length_cons, List.length_nil] at this
    omega

theorem trav_code_lt (t : HuffmanNode) (pre : List Bool) :
    ∀ p ∈ in_order_traversal t pre, p.2.length + 1 ≤ pre.length + countLeaves t := by
  induction t generalizing pre with
  | Leaf v c =>
    intro p hp
    simp only [in_order_traversal, List.mem_singleton] at hp
    subst hp
    simp [countLeaves]
  | Node l r ihl ihr =>
    intro p hp
    simp only [in_order_traversal, List.mem_append] at hp
    have hl1 := countLeaves_pos l
    have hr1 := countLeaves_pos r
    rcases hp with hp | hp
    · have := ihl (pre ++ [false]) p hp
      simp only [List.length_append, List.length_cons, List.length_nil,
        countLeaves] at this ⊢
      omega
    · have := ihr (pre ++ [true]) p hp
      simp only [List.length_append, List.length_cons, List.length_nil,
        countLeaves] at this ⊢
      omega

theorem trav_val_mem (t : HuffmanNode) (pre : List Bool) :
    ∀ p ∈ in_order_traversal t pre, p.1 ∈ leafVals t := by
  induction t generalizing pre with
  | Leaf v c => simp [in_order_traversal, leafVals]
  | Node l r ihl ihr =>
    intro p hp
    simp only [in_order_traversal, List.mem_append] at hp
    simp only [leafVals, List.mem_append]
    rcases hp with hp | hp
    · exact Or.inl (ihl _ p hp)
    · exact Or.inr (ihr _ p hp)

theorem trav_map_specLeaves (t : HuffmanNode) (pre : List Bool) :
    (in_order_traversal t pre).map (fun p => (p.2.length, p.1))
      = specLeaves t pre.length := by
  induction t generalizing pre with
  | Leaf v c => simp [in_order_traversal, specLeaves]
  | Node l r ihl ihr =>
    simp only [in_order_traversal, specLeaves, List.map_append]
    rw [ihl (pre ++ [false]), ihr (pre ++ [true])]
    simp

end HuffmanNode
/-! ### Descriptor round-trip lemmas -/

namespace HuffmanNode

theorem decodeTreeAux_roundtrip (t : HuffmanNode) :
    ∀ (pre : List Bool) (rest : List CodePoint) (fuel : Nat),
      size t ≤ fuel →
      decodeTreeAux fuel
        ((in_order_traversal t pre).map (fun p => CodePoint.mk p.2.length p.1) ++ rest)
        pre.length = some (strip t, rest) := by
  induction t with
  | Leaf v c =>
    intro pre rest fuel hfuel
    match fuel, hfuel with
    | f + 1, _ =>
      simp [in_order_traversal, decodeTreeAux, strip]
  | Node l r ihl ihr =>
    intro pre rest fuel hfuel
    match fuel, hfuel with
    | f + 1, hfuel =>
      obtain ⟨p, ps, hl⟩ : ∃ p ps, in_order_traversal l (pre ++ [false]) = p :: ps := by
        cases h : in_order_traversal l (pre ++ [false]) with
        | nil => exact absurd h (trav_ne_nil l (pre ++ [false]))
        | cons p ps => exact ⟨p, ps, rfl⟩
      have hple : pre.length + 1 ≤ p.2.length := by
        have hp : p ∈ in_order_traversal (Node l r) pre := by
          simp only [in_order_traversal, List.mem_append, hl]
          exact Or.inl (List.mem_cons_self p ps)
        exact trav_code_ge_node l r pre p hp
      have hfl : size l ≤ f := by
        have := size_pos r
        simp only [size] at hfuel
        omega
      have hfr : size r ≤ f := by
        have := size_pos l
        simp only [size] at hfuel
        omega
      rw [in_order_traversal, List.map_append, List.append_assoc, hl,
        List.map_cons, List.cons_append, decodeTreeAux]
      have hbeq : ((CodePoint.mk p.2.length p.1).len == pre.length) = false := by
        show (p.2.length == pre.length) = false
        exact beq_eq_false_iff_ne.mpr (by omega)
      rw [hbeq]
      simp only [Bool.false_eq_true, if_false]
      have h1 := ihl (pre ++ [false])
        ((in_order_traversal r (pre ++ [true])).map (fun p => CodePoint.mk p.2.length p.1)
          ++ rest) f hfl
      rw [hl, List.map_cons, List.cons_append] at h1
      simp only [List.length_append, List.length_cons, List.length_nil] at h1
      rw [h1]
      simp only [Option.bind_eq_bind, Option.some_bind]
      have h2 := ihr (pre ++ [true]) rest f hfr
      simp only [List.length_append, List.length_cons, List.length_nil] at h2
      rw [h2]
      simp [strip]

end HuffmanNode

theorem scanCodesAux_spec :
    ∀ (cps : List CodePoint) (rest : List Bool) (fuel : Nat),
      (∀ c ∈ cps, 1 ≤ c.len ∧ c.len < 256 ∧ c.data < 256) →
      cps.length + 1 ≤ fuel →
      scanCodesAux fuel
        ((cps.flatMap (fun c => bits8 c.len ++ bits8 c.data))
          ++ (List.replicate 8 false ++ rest))
        = (cps, rest) := by
  intro cps
  induction cps with
  | nil =>
    intro rest fuel hc hfuel
    match fuel, hfuel with
    | f + 1, _ =>
      rw [List.flatMap_nil, List.nil_append, scanCodesAux,
        get_byte_append _ _ (by simp), get_byte_zeros8]
      simp [List.drop_append_of_le_length]
  | cons c cps ih =>
    intro rest fuel hc hfuel
    match fuel, hfuel with
    | f + 1, hfuel =>
      obtain ⟨hc1, hc256, hd256⟩ := hc c (List.mem_cons_self c cps)
      have hlen8 : (bits8 c.len).length = 8 := bits8_length c.len hc256
      have hdat8 : (bits8 c.data).length = 8 := bits8_length c.data hd256
      rw [List.flatMap_cons, List.append_assoc, List.append_assoc,
        scanCodesAux]
      rw [get_byte_append _ _ hlen8, get_byte_bits8 c.len hc256]
      have hne : (c.len == 0) = false := beq_eq_false_iff_ne.mpr (by omega)
      rw [hne]
      simp only [Bool.false_eq_true, if_false]
      rw [List.drop_append_of_le_length (by omega), List.drop_of_length_le (by omega),
        List.nil_append]
      rw [get_byte_append _ _ hdat8, get_byte_bits8 c.data hd256]
      rw [List.drop_append_of_le_length (by omega), List.drop_of_length_le (by omega),
        List.nil_append]
      rw [ih rest f (fun x hx => hc x (List.mem_cons_of_mem c hx)) (by
        simp only [List.length_cons] at hfuel; omega)]

theorem flatMap_bits_length (cps : List CodePoint)
    (h : ∀ c ∈ cps, c.len < 256 ∧ c.data < 256) :
    (cps.flatMap (fun c => bits8 c.len ++ bits8 c.data)).length = 16 * cps.length := by
  induction cps with
  | nil => simp
  | cons c cps ih =>
    obtain ⟨h1, h2⟩ := h c (List.mem_cons_self c cps)
    rw [List.flatMap_cons, List.length_append, List.length_append,
      bits8_length c.len h1, bits8_length c.data h2,
      ih (fun x hx => h x (List.mem_cons_of_mem c hx)), List.length_cons]
    ring

namespace HuffmanNode

theorem beqNode_strip (t : HuffmanNode) : beqNode (strip t) t = true := by
  induction t with
  | Leaf v c => simp [strip, beqNode]
  | Node l r ihl ihr => simp [strip, beqNode, ihl, ihr]

theorem encode_strip (t : HuffmanNode) (n : Nat) :
    encode (strip t) n = encode t n := by
  induction t with
  | Leaf v c => simp [strip, encode]
  | Node l r ihl ihr => simp [strip, encode, ihl, ihr]

theorem decode_tree_serialize (t : HuffmanNode)
    (hnode : ∃ l r, t = Node l r)
    (hval : ∀ v ∈ leafVals t, v < 256)
    (hcnt : countLeaves t ≤ 256) (R : List Bool) :
    decode_tree (serialize_tree t ++ R) = some (strip t, R) := by
  obtain ⟨l0, r0, ht⟩ := hnode
  set cps := (in_order_traversal t []).map (fun p => CodePoint.mk p.2.length p.1) with hcps
  have hc : ∀ c ∈ cps, 1 ≤ c.len ∧ c.len < 256 ∧ c.data < 256 := by
    intro c hcmem
    rw [hcps, List.mem_map] at hcmem
    obtain ⟨p, hp, hpc⟩ := hcmem
    subst hpc
    refine ⟨?_, ?_, ?_⟩
    · have := trav_code_ge_node l0 r0 [] p (ht ▸ hp)
      simpa using this
    · have := trav_code_lt t [] p hp
      simp only [List.length_nil, Nat.zero_add] at this
      show p.2.length < 256
      omega
    · exact hval p.1 (trav_val_mem t [] p hp)
  have hflat : (in_order_traversal t []).flatMap (fun p => bits8 p.2.length ++ bits8 p.1)
      = cps.flatMap (fun c => bits8 c.len ++ bits8 c.data) := by
    rw [hcps, List.flatMap_map]
  have hinput : serialize_tree t ++ R
      = (cps.flatMap (fun c => bits8 c.len ++ bits8 c.data))
          ++ (List.replicate 8 false ++ R) := by
    rw [serialize_tree, hflat, List.append_assoc]
  have hlencps : cps.length = countLeaves t := by
    rw [hcps, List.length_map, trav_length]
  have hlenflat : (cps.flatMap (fun c => bits8 c.len ++ bits8 c.data)).length
      = 16 * cps.length := flatMap_bits_length cps (fun c hc2 => (hc c hc2).2)
  have hscan : scanCodesAux ((serialize_tree t ++ R).length + 1) (serialize_tree t ++ R)
      = (cps, R) := by
    rw [hinput]
    apply scanCodesAux_spec cps R _ hc
    rw [List.length_append, hlenflat]
    omega
  have hsize : size t ≤ 2 * cps.length + 1 := by
    have := size_eq t
    rw [hlencps]
    omega
  have hbuild := decodeTreeAux_roundtrip t [] [] (2 * cps.length + 1) hsize
  rw [List.append_nil, List.length_nil, ← hcps] at hbuild
  rw [decode_tree, hscan]
  show Option.map (fun p => (p.1, R)) (decodeTreeAux (2 * cps.length + 1) cps 0)
      = some (strip t, R)
  rw [hbuild]
  rfl

end HuffmanNode

/-! ### Payload lemmas -/

namespace HuffmanNode

theorem encode_mem (t : HuffmanNode) (b : Nat) (h : b ∈ leafVals t) :
    ∃ c, encode t b = some c := by
  induction t with
  | Leaf v cnt =>
    simp only [leafVals, List.mem_singleton] at h
    subst h
    exact ⟨[], by simp [encode]⟩
  | Node l r ihl ihr =>
    simp only [leafVals, List.mem_append] at h
    rcases h with h | h
    · obtain ⟨c, hc⟩ := ihl h
      exact ⟨false :: c, by simp [encode, hc]⟩
    · cases hl : encode l b with
      | some c => exact ⟨false :: c, by simp [encode, hl]⟩
      | none =>
        obtain ⟨c, hc⟩ := ihr h
        exact ⟨true :: c, by simp [encode, hl, hc]⟩

theorem encode_sound (t : HuffmanNode) (b : Nat) (p : List Bool)
    (h : encode t b = some p) (x : Bool) (rest : List Bool) :
    decode_item t (p ++ x :: rest) = some (b, x :: rest) := by
  induction t generalizing p with
  | Leaf v cnt =>
    simp only [encode] at h
    by_cases hv : v = b
    · simp only [hv, beq_self_eq_true, if_true, Option.some.injEq] at h
      subst h
      simp [decode_item, hv]
    · rw [beq_eq_false_iff_ne.mpr hv] at h
      simp at h
  | Node l r ihl ihr =>
    simp only [encode] at h
    cases hl : encode l b with
    | some s =>
      rw [hl] at h
      simp only [Option.some.injEq] at h
      subst h
      simp only [List.cons_append, decode_item]
      exact ihl s hl
    | none =>
      rw [hl] at h
      cases hr : encode r b with
      | some s =>
        rw [hr] at h
        simp only [Option.some.injEq] at h
        subst h
        simp only [List.cons_append, decode_item]
        exact ihr s hr
      | none => rw [hr] at h; simp at h

theorem encode_node_length (l r : HuffmanNode) (b : Nat) (p : List Bool)
    (h : encode (Node l r) b = some p) : 1 ≤ p.length := by
  simp only [encode] at h
  cases hl : encode l b with
  | some s => rw [hl] at h; simp only [Option.some.injEq] at h; subst h; simp
  | none =>
    rw [hl] at h
    cases hr : encode r b with
    | some s => rw [hr] at h; simp only [Option.some.injEq] at h; subst h; simp
    | none => rw [hr] at h; simp at h

theorem encodeAll_some (t : HuffmanNode) (s : List Nat)
    (h : ∀ b ∈ s, ∃ c, encode t b = some c) :
    ∃ enc, encodeAll t s = some enc := by
  induction s with
  | nil => exact ⟨[], rfl⟩
  | cons n ns ih =>
    obtain ⟨c, hc⟩ := h n (List.mem_cons_self n ns)
    obtain ⟨rest, hrest⟩ := ih (fun b hb => h b (List.mem_cons_of_mem n hb))
    exact ⟨c ++ rest, by simp [encodeAll, hc, hrest]⟩

theorem encodeAll_append (t : HuffmanNode) (s1 s2 : List Nat) (e1 e2 : List Bool)
    (h1 : encodeAll t s1 = some e1) (h2 : encodeAll t s2 = some e2) :
    encodeAll t (s1 ++ s2) = some (e1 ++ e2) := by
  induction s1 generalizing e1 with
  | nil =>
    simp only [encodeAll, Option.some.injEq] at h1
    subst h1
    simpa using h2
  | cons n ns ih =>
    rw [List.cons_append]
    simp only [encodeAll, Option.bind_eq_bind] at h1 ⊢
    cases hc : encode t n with
    | none => rw [hc] at h1; simp at h1
    | some c =>
      rw [hc] at h1
      simp only [Option.some_bind] at h1 ⊢
      cases hrest : encodeAll t ns with
      | none => rw [hrest] at h1; simp at h1
      | some rest =>
        rw [hrest] at h1
        simp only [Option.some_bind, Option.pure_def, Option.some.injEq] at h1
        rw [ih rest hrest]
        simp [Option.pure_def, ← h1, List.append_assoc]

theorem encodeAll_cons_inv (t : HuffmanNode) (n : Nat) (ns : List Nat)
    (enc : List Bool) (h : encodeAll t (n :: ns) = some enc) :
    ∃ c rest, encode t n = some c ∧ encodeAll t ns = some rest ∧ enc = c ++ rest := by
  simp only [encodeAll, Option.bind_eq_bind] at h
  cases hc : encode t n with
  | none => rw [hc] at h; simp at h
  | some c =>
    rw [hc] at h
    simp only [Option.some_bind] at h
    cases hrest : encodeAll t ns with
    | none => rw [hrest] at h; simp at h
    | some rest =>
      rw [hrest] at h
      simp only [Option.some_bind, Option.pure_def, Option.some.injEq] at h
      exact ⟨c, rest, rfl, rfl, h.symm⟩

theorem encodeAll_strip (t : HuffmanNode) (s : List Nat) :
    encodeAll (strip t) s = encodeAll t s := by
  induction s with
  | nil => rfl
  | cons n ns ih => simp [encodeAll, encode_strip, ih]

theorem decodeLoop_spec (T : HuffmanNode) (hT : ∃ l r, T = Node l r) :
    ∀ (ss : List Nat) (enc c0 tail : List Bool) (fuel : Nat),
      encodeAll T ss = some enc →
      (∀ s ∈ ss, s ≠ 0) →
      encode T 0 = some c0 →
      tail ≠ [] →
      (enc ++ (c0 ++ tail)).length + 1 ≤ fuel →
      decodeLoop T fuel (enc ++ (c0 ++ tail)) = some ss := by
  obtain ⟨l0, r0, hT⟩ := hT
  intro ss
  induction ss with
  | nil =>
    intro enc c0 tail fuel henc hnz hc0 htail hfuel
    simp only [encodeAll, Option.some.injEq] at henc
    subst henc
    obtain ⟨x, ts, htl⟩ := List.exists_cons_of_ne_nil htail
    subst htl
    have hc0len : 1 ≤ c0.length := encode_node_length l0 r0 0 c0 (hT ▸ hc0)
    match fuel, hfuel with
    | f + 1, hfuel =>
      rw [List.nil_append, decodeLoop,
        if_pos (by simp only [List.length_append, List.length_cons]; omega)]
      rw [encode_sound T 0 c0 hc0 x ts]
      simp
  | cons s ss ih =>
    intro enc c0 tail fuel henc hnz hc0 htail hfuel
    obtain ⟨c, rest, hc, hrest, hsplit⟩ := encodeAll_cons_inv T s ss enc henc
    subst hsplit
    have hclen : 1 ≤ c.length := encode_node_length l0 r0 s c (hT ▸ hc)
    have hR : rest ++ (c0 ++ tail) ≠ [] := by
      intro hcontra
      rcases List.append_eq_nil.mp hcontra with ⟨_, h2⟩
      rcases List.append_eq_nil.mp h2 with ⟨_, h3⟩
      exact htail h3
    obtain ⟨x, rs, hxrs⟩ := List.exists_cons_of_ne_nil hR
    have hc0len : 1 ≤ c0.length := encode_node_length l0 r0 0 c0 (hT ▸ hc0)
    have htlen : 1 ≤ tail.length := by
      cases tail with
      | nil => exact absurd rfl htail
      | cons a b => simp
    match fuel, hfuel with
    | f + 1, hfuel =>
      rw [List.append_assoc, decodeLoop,
        if_pos (by
          simp only [List.length_append]
          omega)]
      have hsne : (s == 0) = false :=
        beq_eq_false_iff_ne.mpr (hnz s (List.mem_cons_self s ss))
      rw [hxrs, encode_sound T s c hc x rs]
      simp only [hsne, Bool.false_eq_true, if_false]
      rw [← hxrs]
      rw [ih rest c0 tail f hrest (fun a ha => hnz a (List.mem_cons_of_mem s ha)) hc0 htail
        (by
          simp only [List.length_append] at hfuel ⊢
          omega)]
      rfl

end HuffmanNode

/-! ### Tree-builder lemmas -/

namespace HuffmanNode

/-- Total usage of a working collection (proof-layer helper). -/
def sumUsage (l : List HuffmanNode) : Nat := (l.map get_usage).sum

/-- Total leaf count of a working collection (proof-layer helper). -/
def sumLeaves (l : List HuffmanNode) : Nat := (l.map countLeaves).sum

/-- All leaf symbols of a working collection (proof-layer helper). -/
def valsOf (l : List HuffmanNode) : List Nat := l.flatMap leafVals

instance : IsTotal HuffmanNode (fun a b => get_usage b ≤ get_usage a) :=
  ⟨fun _ _ => Nat.le_total _ _⟩

instance : IsTrans HuffmanNode (fun a b => get_usage b ≤ get_usage a) :=
  ⟨fun _ _ _ h1 h2 => Nat.le_trans h2 h1⟩

theorem sortDesc_perm (trees : List HuffmanNode) : List.Perm (sortDesc trees) trees :=
  List.perm_insertionSort _ trees

theorem sortDesc_length (trees : List HuffmanNode) :
    (sortDesc trees).length = trees.length :=
  (sortDesc_perm trees).length_eq

theorem sortDesc_sorted (trees : List HuffmanNode) :
    List.Sorted (fun a b => get_usage b ≤ get_usage a) (sortDesc trees) :=
  List.sorted_insertionSort _ trees

theorem sumUsage_perm {l1 l2 : List HuffmanNode} (h : List.Perm l1 l2) :
    sumUsage l1 = sumUsage l2 :=
  (h.map get_usage).sum_eq

theorem sumLeaves_perm {l1 l2 : List HuffmanNode} (h : List.Perm l1 l2) :
    sumLeaves l1 = sumLeaves l2 :=
  (h.map countLeaves).sum_eq

theorem valsOf_perm {l1 l2 : List HuffmanNode} (h : List.Perm l1 l2) :
    List.Perm (valsOf l1) (valsOf l2) :=
  h.flatMap_right leafVals

theorem step_shape (trees : List HuffmanNode) (h : 2 ≤ trees.length) :
    ∃ a b rest, (sortDesc trees).reverse = a :: b :: rest
      ∧ step trees = (Node a b :: rest).reverse := by
  have hlen : 2 ≤ (sortDesc trees).reverse.length := by
    rw [List.length_reverse, sortDesc_length]
    exact h
  match hrev : (sortDesc trees).reverse, hlen with
  | a :: b :: rest, _ =>
    refine ⟨a, b, rest, rfl, ?_⟩
    rw [step, hrev]
  | [], hl => simp at hl
  | [a], hl => simp at hl

theorem step_length (trees : List HuffmanNode) (h : 2 ≤ trees.length) :
    (step trees).length = trees.length - 1 := by
  obtain ⟨a, b, rest, hrev, hstep⟩ := step_shape trees h
  have : (sortDesc trees).reverse.length = trees.length := by
    rw [List.length_reverse, sortDesc_length]
  rw [hrev] at this
  rw [hstep, List.length_reverse]
  simp only [List.length_cons] at this ⊢
  omega

theorem step_perm_node (trees : List HuffmanNode) (h : 2 ≤ trees.length) :
    ∃ a b rest, List.Perm (step trees) (Node a b :: rest)
      ∧ List.Perm trees (a :: b :: rest) := by
  obtain ⟨a, b, rest, hrev, hstep⟩ := step_shape trees h
  refine ⟨a, b, rest, ?_, ?_⟩
  · rw [hstep]
    exact (Node a b :: rest).reverse_perm
  · have h1 : List.Perm trees (sortDesc trees).reverse :=
      ((sortDesc trees).reverse_perm.trans (sortDesc_perm trees)).symm
    rw [hrev] at h1
    exact h1

theorem sumUsage_step (trees : List HuffmanNode) (h : 2 ≤ trees.length) :
    sumUsage (step trees) = sumUsage trees := by
  obtain ⟨a, b, rest, hs, ht⟩ := step_perm_node trees h
  rw [sumUsage_perm hs, sumUsage_perm ht]
  simp [sumUsage, get_usage]
  omega

theorem sumLeaves_step (trees : List HuffmanNode) (h : 2 ≤ trees.length) :
    sumLeaves (step trees) = sumLeaves trees := by
  obtain ⟨a, b, rest, hs, ht⟩ := step_perm_node trees h
  rw [sumLeaves_perm hs, sumLeaves_perm ht]
  simp [sumLeaves, countLeaves]
  omega

theorem valsOf_step (trees : List HuffmanNode) (h : 2 ≤ trees.length) :
    List.Perm (valsOf (step trees)) (valsOf trees) := by
  obtain ⟨a, b, rest, hs, ht⟩ := step_perm_node trees h
  refine ((valsOf_perm hs).trans ?_).trans (valsOf_perm ht).symm
  simp [valsOf, leafVals, List.append_assoc]

theorem mergeLoopAux_singleton (fuel : Nat) (t : HuffmanNode) :
    mergeLoopAux fuel [t] = [t] := by
  cases fuel with
  | zero => rfl
  | succ f => simp [mergeLoopAux]

theorem mergeLoopAux_sumUsage (fuel : Nat) (trees : List HuffmanNode) :
    sumUsage (mergeLoopAux fuel trees) = sumUsage trees := by
  induction fuel generalizing trees with
  | zero => rfl
  | succ f ih =>
    rw [mergeLoopAux]
    by_cases h : trees.length > 1
    · rw [if_pos h, ih, sumUsage_step trees (by omega)]
    · rw [if_neg h]

theorem mergeLoopAux_sumLeaves (fuel : Nat) (trees : List HuffmanNode) :
    sumLeaves (mergeLoopAux fuel trees) = sumLeaves trees := by
  induction fuel generalizing trees with
  | zero => rfl
  | succ f ih =>
    rw [mergeLoopAux]
    by_cases h : trees.length > 1
    · rw [if_pos h, ih, sumLeaves_step trees (by omega)]
    · rw [if_neg h]

theorem mergeLoopAux_vals (fuel : Nat) (trees : List HuffmanNode) :
    List.Perm (valsOf (mergeLoopAux fuel trees)) (valsOf trees) := by
  induction fuel generalizing trees with
  | zero => exact List.Perm.refl _
  | succ f ih =>
    rw [mergeLoopAux]
    by_cases h : trees.length > 1
    · rw [if_pos h]
      exact (ih (step trees)).trans (valsOf_step trees (by omega))
    · rw [if_neg h]

theorem mergeLoopAux_node (fuel : Nat) (trees : List HuffmanNode)
    (h2 : 2 ≤ trees.length) (hfuel : trees.length ≤ fuel + 1) :
    ∃ l r, mergeLoopAux fuel trees = [Node l r] := by
  induction fuel generalizing trees with
  | zero => omega
  | succ f ih =>
    rw [mergeLoopAux, if_pos (by omega)]
    by_cases hlen : trees.length = 2
    · obtain ⟨a, b, rest, hrev, hstep⟩ := step_shape trees h2
      have hrest : rest = [] := by
        have : (sortDesc trees).reverse.length = 2 := by
          rw [List.length_reverse, sortDesc_length, hlen]
        rw [hrev] at this
        simp only [List.length_cons] at this
        exact List.eq_nil_of_length_eq_zero (by omega)
      subst hrest
      rw [hstep, List.reverse_singleton]
      exact ⟨a, b, mergeLoopAux_singleton f _⟩
    · exact ih (step trees) (by rw [step_length trees h2]; omega)
        (by rw [step_length trees h2]; omega)

end HuffmanNode

theorem sum_map_add (l : List Nat) (f g : Nat → Nat) :
    (l.map (fun i => f i + g i)).sum = (l.map f).sum + (l.map g).sum := by
  induction l with
  | nil => rfl
  | cons a l ih => simp [ih]; ring

theorem sum_indicator_range (n a : Nat) (h : a < n) :
    ((List.range n).map (fun i => if a == i then 1 else 0)).sum = 1 := by
  induction n with
  | zero => omega
  | succ n ih =>
    rw [List.range_succ, List.map_append, List.sum_append]
    by_cases ha : a = n
    · subst ha
      have hz : ∀ x ∈ (List.range a).map (fun i => if a == i then 1 else 0), x = 0 := by
        intro x hx
        rw [List.mem_map] at hx
        obtain ⟨i, hi, hix⟩ := hx
        rw [List.mem_range] at hi
        rw [← hix, beq_eq_false_iff_ne.mpr (by omega : a ≠ i)]
        rfl
      rw [List.sum_eq_zero hz]
      simp
    · rw [ih (by omega)]
      have hf : (a == n) = false := beq_eq_false_iff_ne.mpr ha
      simp [hf, ha]

theorem sum_counts (items : List Nat) (h : ∀ b ∈ items, b < 256) :
    ((List.range 256).map (fun i => items.count i)).sum = items.length := by
  induction items with
  | nil => simp [List.count_nil]
  | cons a items ih =>
    have ha : a < 256 := h a (List.mem_cons_self a items)
    have hrest : ∀ b ∈ items, b < 256 := fun b hb => h b (List.mem_cons_of_mem a hb)
    have hmap : (List.range 256).map (fun i => (a :: items).count i)
        = (List.range 256).map (fun i => items.count i + (if a == i then 1 else 0)) := by
      apply List.map_congr_left
      intro i _
      exact List.count_cons i a items
    rw [hmap, sum_map_add, ih hrest, sum_indicator_range 256 a ha, List.length_cons]

namespace HuffmanNode

theorem sumUsage_filterMap (items : List Nat) (l : List Nat) :
    sumUsage (l.filterMap (fun i =>
      if 0 < items.count i then some (Leaf i (items.count i)) else none))
      = (l.map (fun i => items.count i)).sum := by
  induction l with
  | nil => rfl
  | cons a l ih =>
    rw [List.filterMap_cons, List.map_cons, List.sum_cons]
    by_cases hc : 0 < items.count a
    · rw [if_pos hc]
      simp only [sumUsage, List.map_cons, List.sum_cons, get_usage] at ih ⊢
      omega
    · rw [if_neg hc, ih]
      omega

theorem sumUsage_initialTrees (items : List Nat) (h : ∀ b ∈ items, b < 256) :
    sumUsage (initialTrees items) = items.length := by
  rw [initialTrees, sumUsage_filterMap, sum_counts items h]

theorem initialTrees_shape (items : List Nat) :
    ∀ t ∈ initialTrees items, ∃ v, t = Leaf v (items.count v) ∧ v < 256
      ∧ 0 < items.count v := by
  intro t ht
  rw [initialTrees, List.mem_filterMap] at ht
  obtain ⟨i, hi, hif⟩ := ht
  rw [List.mem_range] at hi
  by_cases hc : 0 < items.count i
  · rw [if_pos hc] at hif
    cases hif
    exact ⟨i, rfl, hi, hc⟩
  · rw [if_neg hc] at hif
    cases hif

theorem sumLeaves_all_one (l : List HuffmanNode)
    (h : ∀ t ∈ l, countLeaves t = 1) : sumLeaves l = l.length := by
  induction l with
  | nil => rfl
  | cons t l ih =>
    rw [sumLeaves, List.map_cons, List.sum_cons, h t (List.mem_cons_self t l),
      List.length_cons]
    have := ih (fun x hx => h x (List.mem_cons_of_mem t hx))
    rw [sumLeaves] at this
    omega

theorem sumLeaves_initialTrees (items : List Nat) :
    sumLeaves (initialTrees items) = (initialTrees items).length := by
  apply sumLeaves_all_one
  intro t ht
  obtain ⟨v, hv, _, _⟩ := initialTrees_shape items t ht
  rw [hv]
  rfl

end HuffmanNode

namespace HuffmanNode

theorem initialTrees_length_le (items : List Nat) :
    (initialTrees items).length ≤ 256 := by
  rw [initialTrees]
  calc (List.filterMap _ (List.range 256)).length
      ≤ (List.range 256).length := List.length_filterMap_le _ _
    _ = 256 := List.length_range 256

theorem mem_initialTrees (items : List Nat) (v : Nat) (hv : v ∈ items)
    (h256 : v < 256) : Leaf v (items.count v) ∈ initialTrees items := by
  rw [initialTrees, List.mem_filterMap]
  exact ⟨v, List.mem_range.mpr h256,
    by rw [if_pos (List.count_pos_iff.mpr hv)]⟩

theorem mem_valsOf_initialTrees (items : List Nat) (v : Nat) :
    v ∈ valsOf (initialTrees items) ↔ v ∈ items ∧ v < 256 := by
  constructor
  · intro h
    rw [valsOf, List.mem_flatMap] at h
    obtain ⟨t, ht, hvt⟩ := h
    obtain ⟨w, hw, hw256, hwc⟩ := initialTrees_shape items t ht
    subst hw
    simp only [leafVals, List.mem_singleton] at hvt
    subst hvt
    exact ⟨List.count_pos_iff.mp hwc, hw256⟩
  · intro ⟨hv, h256⟩
    rw [valsOf, List.mem_flatMap]
    exact ⟨Leaf v (items.count v), mem_initialTrees items v hv h256,
      by simp [leafVals]⟩

theorem initialTrees_two (items : List Nat) (u v : Nat) (hu : u ∈ items)
    (hv : v ∈ items) (hu2 : u < 256) (hv2 : v < 256) (hne : u ≠ v) :
    2 ≤ (initialTrees items).length := by
  have h1 := mem_initialTrees items u hu hu2
  have h2 := mem_initialTrees items v hv hv2
  match hl : initialTrees items with
  | [] =>
    rw [hl] at h1
    exact absurd h1 (List.not_mem_nil _)
  | [x] =>
    rw [hl] at h1 h2
    simp only [List.mem_singleton] at h1 h2
    rw [← h2] at h1
    exact absurd (Leaf.injEq .. ▸ congrArg id h1) (by
      intro hcontra
      cases h1
      exact hne rfl)
  | x :: y :: rest => simp

theorem build_tree_inv (items : List Nat) (t : HuffmanNode)
    (h : build_tree items = some t) :
    items ≠ [] ∧ mergeLoopAux (initialTrees items).length (initialTrees items) = [t]
      ∧ ∃ l r, t = Node l r := by
  rw [build_tree] at h
  by_cases he : items.isEmpty
  · rw [if_pos he] at h
    simp at h
  · rw [if_neg he] at h
    refine ⟨by simpa [List.isEmpty_iff] using he, ?_⟩
    cases hm : mergeLoopAux (initialTrees items).length (initialTrees items) with
    | nil => rw [hm] at h; simp at h
    | cons t0 rest =>
      cases rest with
      | cons t1 rest2 => rw [hm] at h; simp at h
      | nil =>
        cases t0 with
        | Leaf v c => rw [hm] at h; simp at h
        | Node l r =>
          rw [hm] at h
          simp only [Option.some.injEq] at h
          subst h
          exact ⟨rfl, l, r, rfl⟩

theorem build_tree_usage (items : List Nat) (t : HuffmanNode)
    (h256 : ∀ b ∈ items, b < 256) (h : build_tree items = some t) :
    get_usage t = items.length := by
  obtain ⟨_, hm, _⟩ := build_tree_inv items t h
  have h1 := mergeLoopAux_sumUsage (initialTrees items).length (initialTrees items)
  rw [hm] at h1
  have h2 : sumUsage [t] = get_usage t := by simp [sumUsage]
  rw [h2, sumUsage_initialTrees items h256] at h1
  exact h1

theorem build_tree_countLeaves (items : List Nat) (t : HuffmanNode)
    (h : build_tree items = some t) : countLeaves t ≤ 256 := by
  obtain ⟨_, hm, _⟩ := build_tree_inv items t h
  have h1 := mergeLoopAux_sumLeaves (initialTrees items).length (initialTrees items)
  rw [hm] at h1
  have h2 : sumLeaves [t] = countLeaves t := by simp [sumLeaves]
  rw [h2, sumLeaves_initialTrees items] at h1
  rw [h1]
  exact initialTrees_length_le items

theorem build_tree_vals (items : List Nat) (t : HuffmanNode)
    (h : build_tree items = some t) (v : Nat) :
    v ∈ leafVals t ↔ v ∈ items ∧ v < 256 := by
  obtain ⟨_, hm, _⟩ := build_tree_inv items t h
  have h1 := mergeLoopAux_vals (initialTrees items).length (initialTrees items)
  rw [hm] at h1
  have h2 : valsOf [t] = leafVals t := by simp [valsOf]
  rw [h2] at h1
  rw [← mem_valsOf_initialTrees items v]
  exact h1.mem_iff

theorem build_tree_node (items : List Nat) (t : HuffmanNode)
    (h : build_tree items = some t) : ∃ l r, t = Node l r :=
  (build_tree_inv items t h).2.2

theorem build_tree_some (items : List Nat) (u v : Nat) (hu : u ∈ items)
    (hv : v ∈ items) (hu2 : u < 256) (hv2 : v < 256) (hne : u ≠ v) :
    ∃ l r, build_tree items = some (Node l r) := by
  have h2 : 2 ≤ (initialTrees items).length :=
    initialTrees_two items u v hu hv hu2 hv2 hne
  obtain ⟨l, r, hm⟩ := mergeLoopAux_node (initialTrees items).length
    (initialTrees items) h2 (by omega)
  refine ⟨l, r, ?_⟩
  rw [build_tree, if_neg (by
    simp only [List.isEmpty_iff]
    exact List.ne_nil_of_mem hu), hm]

end HuffmanNode

namespace HuffmanNode

theorem encode_isPrefixOf_false (t : HuffmanNode) (a b : Nat) (ca cb : List Bool)
    (hne : a ≠ b) (ha : encode t a = some ca) (hb : encode t b = some cb) :
    ca.isPrefixOf cb = false := by
  induction t generalizing ca cb with
  | Leaf v c =>
    simp only [encode] at ha hb
    have hva : v = a := by
      by_contra hcontra
      rw [beq_eq_false_iff_ne.mpr hcontra] at ha
      simp at ha
    have hvb : v = b := by
      by_contra hcontra
      rw [beq_eq_false_iff_ne.mpr hcontra] at hb
      simp at hb
    exact absurd (hva ▸ hvb) hne
  | Node l r ihl ihr =>
    simp only [encode] at ha hb
    cases hla : encode l a with
    | some sa =>
      rw [hla] at ha
      simp only [Option.some.injEq] at ha
      subst ha
      cases hlb : encode l b with
      | some sb =>
        rw [hlb] at hb
        simp only [Option.some.injEq] at hb
        subst hb
        simpa [List.isPrefixOf] using ihl sa sb hla hlb
      | none =>
        rw [hlb] at hb
        cases hrb : encode r b with
        | some sb =>
          rw [hrb] at hb
          simp only [Option.some.injEq] at hb
          subst hb
          simp [List.isPrefixOf]
        | none => rw [hrb] at hb; simp at hb
    | none =>
      rw [hla] at ha
      cases hra : encode r a with
      | some sa =>
        rw [hra] at ha
        simp only [Option.some.injEq] at ha
        subst ha
        cases hlb : encode l b with
        | some sb =>
          rw [hlb] at hb
          simp only [Option.some.injEq] at hb
          subst hb
          simp [List.isPrefixOf]
        | none =>
          rw [hlb] at hb
          cases hrb : encode r b with
          | some sb =>
            rw [hrb] at hb
            simp only [Option.some.injEq] at hb
            subst hb
            simpa [List.isPrefixOf] using ihr sa sb hra hrb
          | none => rw [hrb] at hb; simp at hb
      | none => rw [hra] at ha; simp at ha

end HuffmanNode

theorem decodeLoop_eq_specPayloadLoop (t : HuffmanNode) (fuel : Nat)
    (input : List Bool) :
    HuffmanNode.decodeLoop t fuel input = specPayloadLoop t fuel input := by
  induction fuel generalizing input with
  | zero => rfl
  | succ f ih =>
    rw [HuffmanNode.decodeLoop, specPayloadLoop]
    by_cases h : input.length > 1
    · rw [if_pos h, if_neg (by omega)]
      cases hd : HuffmanNode.decode_item t input with
      | none => rfl
      | some p =>
        cases p with
        | mk item inp =>
          by_cases hi : item = 0
          · subst hi
            rfl
          · have hf : (item == 0) = false := beq_eq_false_iff_ne.mpr hi
            simp only [hf, Bool.false_eq_true, if_false, ih]
    · rw [if_neg h, if_pos (by omega)]

set_option maxHeartbeats 1000000 in
/-- Full encode-then-decode round trip for sentinel-free byte inputs: the
main-level `encode` followed by the main-level `decode` recovers the input
exactly, provided the input is non-empty, contains no zero byte, and its
elements are bytes. -/
theorem Main.roundTrip (S : List Nat) (hne : S ≠ [])
    (hnz : ∀ b ∈ S, b ≠ 0) (h256 : ∀ b ∈ S, b < 256) :
    (Main.encode S).bind Main.decode = some S := by
  obtain ⟨x, xs, hS⟩ := List.exists_cons_of_ne_nil hne
  have hx : x ∈ S := by rw [hS]; exact List.mem_cons_self x xs
  have hx0 : x ≠ 0 := hnz x hx
  have hx256 : x < 256 := h256 x hx
  have hxS2 : x ∈ S ++ [0] := List.mem_append_left _ hx
  have h0S2 : (0 : Nat) ∈ S ++ [0] := List.mem_append_right _ (by simp)
  obtain ⟨l, r, hbt⟩ :=
    HuffmanNode.build_tree_some (S ++ [0]) x 0 hxS2 h0S2 hx256 (by omega) hx0
  set T := HuffmanNode.Node l r with hT
  have hvals := fun v => HuffmanNode.build_tree_vals (S ++ [0]) T hbt v
  have hcnt : HuffmanNode.countLeaves T ≤ 256 :=
    HuffmanNode.build_tree_countLeaves _ T hbt
  have hval256 : ∀ v ∈ HuffmanNode.leafVals T, v < 256 :=
    fun v hv => ((hvals v).mp hv).2
  obtain ⟨encS, hencS⟩ := HuffmanNode.encodeAll_some T S (fun b hb =>
    HuffmanNode.encode_mem T b ((hvals b).mpr ⟨List.mem_append_left _ hb, h256 b hb⟩))
  obtain ⟨c0, hc0⟩ := HuffmanNode.encode_mem T 0 ((hvals 0).mpr ⟨h0S2, by omega⟩)
  have h01 : HuffmanNode.encodeAll T [0] = some c0 := by
    simp [HuffmanNode.encodeAll, hc0]
  have hencS2 : HuffmanNode.encodeAll T (S ++ [0]) = some (encS ++ c0) :=
    HuffmanNode.encodeAll_append T S [0] encS c0 hencS h01
  set B := HuffmanNode.serialize_tree T ++ (encS ++ c0) with hB
  have henc : Main.encode S = some (pack B) := by
    simp only [Main.encode, hbt, Option.some_bind]
    show HuffmanNode.serialize T (S ++ [0]) = _
    rw [HuffmanNode.serialize, hencS2]
    rfl
  set pad := (8 - B.length % 8) % 8 with hpad
  set tl := List.replicate pad false ++ [false] with htl
  set R := encS ++ (c0 ++ tl) with hR
  have hunpack : (pack B).flatMap byteToBits ++ [false]
      = HuffmanNode.serialize_tree T ++ R := by
    rw [unpack_pack, ← hpad, hR, htl]
    simp only [hB, List.append_assoc]
  have hdt : HuffmanNode.decode_tree ((pack B).flatMap byteToBits ++ [false])
      = some (HuffmanNode.strip T, R) := by
    rw [hunpack]
    exact HuffmanNode.decode_tree_serialize T ⟨l, r, hT⟩ hval256 hcnt R
  have hloop : HuffmanNode.decodeLoop (HuffmanNode.strip T) (R.length + 1) R
      = some S := by
    rw [hR]
    apply HuffmanNode.decodeLoop_spec (HuffmanNode.strip T)
      ⟨HuffmanNode.strip l, HuffmanNode.strip r, by rw [hT]; rfl⟩
      S encS c0 tl (R.length + 1)
    · rw [HuffmanNode.encodeAll_strip]
      exact hencS
    · exact hnz
    · rw [HuffmanNode.encode_strip]
      exact hc0
    · rw [htl]
      simp
    · rw [hR]
  have hdec : Main.decode (pack B) = some S := by
    simp only [Main.decode, HuffmanNode.decode]
    rw [hdt]
    simp only [Option.some_bind]
    rw [hloop]
    rfl
  rw [henc, Option.some_bind]
  exact hdec

namespace HuffmanNode

/-- The weight invariant the spec states for internal nodes: every internal
node weighs the sum of its two children.  In the code this is how
`get_usage` computes, so it holds for every tree. -/
def weightConsistent : HuffmanNode → Prop
  | Leaf _ _ => True
  | Node l r => get_usage (Node l r) = get_usage l + get_usage r
      ∧ weightConsistent l ∧ weightConsistent r

theorem weightConsistent_all (t : HuffmanNode) : weightConsistent t := by
  induction t with
  | Leaf v c => trivial
  | Node l r ihl ihr => exact ⟨rfl, ihl, ihr⟩

theorem filterMap_single (f : Nat → Option HuffmanNode) (n v : Nat) (hv : v < n)
    (hnone : ∀ i, i ≠ v → f i = none) (x : HuffmanNode) (hx : f v = some x) :
    (List.range n).filterMap f = [x] := by
  induction n with
  | zero => omega
  | succ n ih =>
    rw [List.range_succ, List.filterMap_append]
    by_cases h : v = n
    · subst h
      have h1 : (List.range v).filterMap f = [] := by
        rw [List.filterMap_eq_nil_iff]
        intro i hi
        exact hnone i (by rw [List.mem_range] at hi; omega)
      rw [h1, List.nil_append, List.filterMap_cons, hx]
      rfl
    · have hfn : f n = none := hnone n (fun hc => h hc.symm)
      rw [ih (by omega), List.filterMap_cons, hfn]
      rfl

theorem initialTrees_all_same (items : List Nat) (v : Nat) (hne : items ≠ [])
    (hv : ∀ b ∈ items, b = v) (h256 : v < 256) :
    initialTrees items = [Leaf v (items.count v)] := by
  have hcv : 0 < items.count v := by
    obtain ⟨x, xs, hx⟩ := List.exists_cons_of_ne_nil hne
    have hxv : x = v := hv x (by rw [hx]; exact List.mem_cons_self x xs)
    exact List.count_pos_iff.mpr (hxv ▸ (by rw [hx]; exact List.mem_cons_self x xs))
  rw [initialTrees]
  apply filterMap_single _ 256 v h256
  · intro i hi
    have hz : items.count i = 0 := by
      rw [List.count_eq_zero]
      intro hmem
      exact hi (hv i hmem)
    rw [hz]
    rfl
  · rw [if_pos hcv]

theorem build_tree_single_none (items : List Nat) (v : Nat) (hne : items ≠ [])
    (hv : ∀ b ∈ items, b = v) (h256 : v < 256) :
    build_tree items = none := by
  have hinit := initialTrees_all_same items v hne hv h256
  rw [build_tree, if_neg (by simp only [List.isEmpty_iff]; exact hne), hinit]
  rw [show ([Leaf v (items.count v)] : List HuffmanNode).length = 1 from rfl,
    mergeLoopAux_singleton]

end HuffmanNode

/-! ### Claim theorems -/

/-- C1, counterexample: the claim quantifies over every non-empty byte
sequence with at least two distinct values, but for `S = [0, 1]` (non-empty,
two distinct byte values) the decoder stops at the first decoded zero symbol,
so decoding the encoding yields `[]`, not `S`. -/
theorem claim1_counterexample :
    (Main.encode [0, 1]).bind Main.decode = some []
      ∧ (Main.encode [0, 1]).bind Main.decode ≠ some [0, 1] := by
  decide

/-- C1, amended: for every non-empty byte sequence `S` with at least two
distinct byte values and containing no zero byte, decoding the encoding of
`S` returns exactly `S`: encode appends the zero sentinel before building the
tree and serializing, and decode strips the sentinel. -/
theorem claim1_round_trip (S : List Nat) (hne : S ≠ [])
    (hdistinct : ∃ a ∈ S, ∃ b ∈ S, a ≠ b)
    (hnz : ∀ b ∈ S, b ≠ 0) (h256 : ∀ b ∈ S, b < 256) :
    (Main.encode S).bind Main.decode = some S :=
  Main.roundTrip S hne hnz h256

/-- C1 witness: the amended round trip at the concrete input `[1, 2]`. -/
theorem claim1_witness :
    (Main.encode [1, 2]).bind Main.decode = some [1, 2] :=
  claim1_round_trip [1, 2] (by decide)
    ⟨1, by decide, 2, by decide, by decide⟩ (by decide) (by decide)

/-- C2: serializing the descriptor of a tree produced by the Tree Builder
and rebuilding it with the decoder tree algorithm yields a tree structurally
equal to the original, where structural equality (the Rust `PartialEq`,
`beqNode`) compares shape and leaf symbols and ignores weights. -/
theorem claim2_descriptor_round_trip (items : List Nat) (t : HuffmanNode)
    (h : HuffmanNode.build_tree items = some t) :
    ∃ p, HuffmanNode.decode_tree t.serialize_tree = some p
      ∧ HuffmanNode.beqNode p.1 t = true ∧ p.2 = [] := by
  have hnode := HuffmanNode.build_tree_node items t h
  have hval : ∀ v ∈ t.leafVals, v < 256 :=
    fun v hv => ((HuffmanNode.build_tree_vals items t h v).mp hv).2
  have hcnt := HuffmanNode.build_tree_countLeaves items t h
  have hdt := HuffmanNode.decode_tree_serialize t hnode hval hcnt []
  rw [List.append_nil] at hdt
  exact ⟨(t.strip, []), hdt, HuffmanNode.beqNode_strip t, rfl⟩

/-- C2 witness: the descriptor round trip for the tree built from the
concrete input `[97, 97, 98, 0]`. -/
theorem claim2_witness :
    ∃ p, HuffmanNode.decode_tree
        (HuffmanNode.Node (HuffmanNode.Node (HuffmanNode.Leaf 98 1)
          (HuffmanNode.Leaf 0 1)) (HuffmanNode.Leaf 97 2)).serialize_tree
        = some p
      ∧ HuffmanNode.beqNode p.1
          (HuffmanNode.Node (HuffmanNode.Node (HuffmanNode.Leaf 98 1)
            (HuffmanNode.Leaf 0 1)) (HuffmanNode.Leaf 97 2)) = true
      ∧ p.2 = [] :=
  claim2_descriptor_round_trip [97, 97, 98, 0]
    (HuffmanNode.Node (HuffmanNode.Node (HuffmanNode.Leaf 98 1)
      (HuffmanNode.Leaf 0 1)) (HuffmanNode.Leaf 97 2)) (by decide)

/-- C3: the serialized tree descriptor is exactly, for each leaf in
depth-first left-before-right order, an 8-bit field holding the leaf depth
(its code length) followed by an 8-bit field holding the symbol, and after
all leaves one all-zero 8-bit terminator; the leaf order and depths are the
ones of `specLeaves`, written from the spec words.  The 8-bit-field reading
requires depths and symbols below 256, which holds for every tree the
program can produce. -/
theorem claim3_descriptor_format (t : HuffmanNode)
    (hdep : ∀ p ∈ specLeaves t 0, p.1 < 256)
    (hval : ∀ p ∈ specLeaves t 0, p.2 < 256) :
    t.serialize_tree
        = (specLeaves t 0).flatMap (fun p => bits8 p.1 ++ bits8 p.2)
          ++ List.replicate 8 false
      ∧ ∀ p ∈ specLeaves t 0,
          (bits8 p.1).length = 8 ∧ (bits8 p.2).length = 8 := by
  constructor
  · rw [HuffmanNode.serialize_tree]
    congr 1
    have hmap := HuffmanNode.trav_map_specLeaves t []
    rw [List.length_nil] at hmap
    rw [← hmap, List.flatMap_map]
  · intro p hp
    exact ⟨bits8_length p.1 (hdep p hp), bits8_length p.2 (hval p hp)⟩

/-- C3 witness: the descriptor format at a concrete three-leaf tree. -/
theorem claim3_witness :
    (HuffmanNode.Node (HuffmanNode.Node (HuffmanNode.Leaf 98 1)
        (HuffmanNode.Leaf 0 1)) (HuffmanNode.Leaf 97 2)).serialize_tree
        = (specLeaves (HuffmanNode.Node (HuffmanNode.Node (HuffmanNode.Leaf 98 1)
            (HuffmanNode.Leaf 0 1)) (HuffmanNode.Leaf 97 2)) 0).flatMap
              (fun p => bits8 p.1 ++ bits8 p.2)
          ++ List.replicate 8 false
      ∧ ∀ p ∈ specLeaves (HuffmanNode.Node (HuffmanNode.Node (HuffmanNode.Leaf 98 1)
            (HuffmanNode.Leaf 0 1)) (HuffmanNode.Leaf 97 2)) 0,
          (bits8 p.1).length = 8 ∧ (bits8 p.2).length = 8 :=
  claim3_descriptor_format _ (by decide) (by decide)

/-- C4: serialize packs the concatenated descriptor-plus-payload bit
sequence into bytes 8 bits at a time most-significant-bit first; the output
length equals the ceiling of the bit count over 8, and the unused low-order
bits of the last byte are zero (the unpacked bytes are the bit sequence
followed only by zero padding). -/
theorem claim4_packing (t : HuffmanNode) (s : List Nat) (out : List Nat)
    (h : HuffmanNode.serialize t s = some out) :
    ∃ enc, HuffmanNode.encodeAll t s = some enc
      ∧ out = pack (t.serialize_tree ++ enc)
      ∧ out.length = ((t.serialize_tree ++ enc).length + 7) / 8
      ∧ out.flatMap byteToBits
          = (t.serialize_tree ++ enc)
            ++ List.replicate
                (out.length * 8 - (t.serialize_tree ++ enc).length) false := by
  rw [HuffmanNode.serialize] at h
  cases henc : HuffmanNode.encodeAll t s with
  | none => rw [henc] at h; simp at h
  | some enc =>
    rw [henc] at h
    simp only [Option.map_some', Option.some.injEq] at h
    refine ⟨enc, rfl, h.symm, ?_, ?_⟩
    · rw [← h, pack_length]
    · rw [← h, unpack_pack]
      congr 2
      rw [pack_length]
      omega

/-- C4 witness: the packing properties at the concrete tree and symbols for
the input `[97, 97, 98, 0]`. -/
theorem claim4_witness :
    ∃ enc, HuffmanNode.encodeAll (HuffmanNode.Node (HuffmanNode.Node
        (HuffmanNode.Leaf 98 1) (HuffmanNode.Leaf 0 1))
        (HuffmanNode.Leaf 97 2)) [97, 97, 98, 0] = some enc
      ∧ [2, 98, 2, 0, 1, 97, 0, 196]
          = pack ((HuffmanNode.Node (HuffmanNode.Node
              (HuffmanNode.Leaf 98 1) (HuffmanNode.Leaf 0 1))
              (HuffmanNode.Leaf 97 2)).serialize_tree ++ enc)
      ∧ ([2, 98, 2, 0, 1, 97, 0, 196] : List Nat).length
          = (((HuffmanNode.Node (HuffmanNode.Node
              (HuffmanNode.Leaf 98 1) (HuffmanNode.Leaf 0 1))
              (HuffmanNode.Leaf 97 2)).serialize_tree ++ enc).length + 7) / 8
      ∧ ([2, 98, 2, 0, 1, 97, 0, 196] : List Nat).flatMap byteToBits
          = ((HuffmanNode.Node (HuffmanNode.Node
              (HuffmanNode.Leaf 98 1) (HuffmanNode.Leaf 0 1))
              (HuffmanNode.Leaf 97 2)).serialize_tree ++ enc)
            ++ List.replicate
                (([2, 98, 2, 0, 1, 97, 0, 196] : List Nat).length * 8
                  - ((HuffmanNode.Node (HuffmanNode.Node
                      (HuffmanNode.Leaf 98 1) (HuffmanNode.Leaf 0 1))
                      (HuffmanNode.Leaf 97 2)).serialize_tree ++ enc).length)
                false :=
  claim4_packing _ [97, 97, 98, 0] [2, 98, 2, 0, 1, 97, 0, 196] (by decide)

/-- C5: for every tree built by the Tree Builder, the code assignment is
prefix-free: for two distinct symbols with codes, neither code is a prefix
of the other. -/
theorem claim5_prefix_free (items : List Nat) (t : HuffmanNode)
    (hbuild : HuffmanNode.build_tree items = some t)
    (a b : Nat) (ca cb : List Bool) (hne : a ≠ b)
    (ha : t.encode a = some ca) (hb : t.encode b = some cb) :
    ca.isPrefixOf cb = false :=
  HuffmanNode.encode_isPrefixOf_false t a b ca cb hne ha hb

/-- C5 witness: prefix-freedom of the codes of 97 and 98 in the tree built
from `[97, 97, 98, 0]`. -/
theorem claim5_witness :
    ([true] : List Bool).isPrefixOf [false, false] = false :=
  claim5_prefix_free [97, 97, 98, 0]
    (HuffmanNode.Node (HuffmanNode.Node (HuffmanNode.Leaf 98 1)
      (HuffmanNode.Leaf 0 1)) (HuffmanNode.Leaf 97 2)) (by decide)
    97 98 [true] [false, false] (by decide) (by decide) (by decide)

/-- C6: every internal node weight (`get_usage`) is the sum of its two
children (this is how `get_usage` computes, so it holds throughout), and for
a tree built from a byte input the root weight equals the input length. -/
theorem claim6_weights (items : List Nat) (t : HuffmanNode)
    (h256 : ∀ b ∈ items, b < 256)
    (hbuild : HuffmanNode.build_tree items = some t) :
    HuffmanNode.weightConsistent t ∧ t.get_usage = items.length :=
  ⟨HuffmanNode.weightConsistent_all t,
    HuffmanNode.build_tree_usage items t h256 hbuild⟩

/-- C6 witness: the weight facts at the tree built from `[97, 97, 98, 0]`. -/
theorem claim6_witness :
    HuffmanNode.weightConsistent (HuffmanNode.Node (HuffmanNode.Node
        (HuffmanNode.Leaf 98 1) (HuffmanNode.Leaf 0 1))
        (HuffmanNode.Leaf 97 2))
      ∧ (HuffmanNode.Node (HuffmanNode.Node (HuffmanNode.Leaf 98 1)
          (HuffmanNode.Leaf 0 1)) (HuffmanNode.Leaf 97 2)).get_usage
        = ([97, 97, 98, 0] : List Nat).length :=
  claim6_weights [97, 97, 98, 0] _ (by decide) (by decide)

/-- C7: the Tree Builder fails fatally on the empty input: the model maps
the Rust panic to `none`, with no partial result. -/
theorem claim7_empty_input : HuffmanNode.build_tree [] = none := rfl

/-- C8: the Tree Builder fails fatally whenever its non-empty input contains
exactly one distinct byte value: the single-leaf tree is rejected rather
than returned. -/
theorem claim8_single_symbol (items : List Nat) (v : Nat) (hne : items ≠ [])
    (hv : ∀ b ∈ items, b = v) (h256 : v < 256) :
    HuffmanNode.build_tree items = none :=
  HuffmanNode.build_tree_single_none items v hne hv h256

/-- C8 witness: the single-symbol failure at `[5, 5]`. -/
theorem claim8_witness : HuffmanNode.build_tree [5, 5] = none :=
  claim8_single_symbol [5, 5] 5 (by decide) (by decide) (by decide)

/-- C9: the decoder payload loop terminates exactly when the decoded symbol
is the zero sentinel (excluded from the output) or fewer than 2 bits remain,
appending every other decoded symbol in order: the code loop equals the loop
written from the spec words, at every fuel and input. -/
theorem claim9_payload_loop (t : HuffmanNode) (fuel : Nat) (input : List Bool) :
    HuffmanNode.decodeLoop t fuel input = specPayloadLoop t fuel input :=
  decodeLoop_eq_specPayloadLoop t fuel input

/-- C10: in every merge step, after the stable descending sort, the
lowest-weight entry (the last element) becomes the LEFT child of the new
node and the second-lowest becomes the RIGHT child, the pair being removed
from the tail and the merged node appended at the end. -/
theorem claim10_merge_orientation (trees : List HuffmanNode)
    (h : 2 ≤ trees.length) :
    ∃ a b rest, HuffmanNode.sortDesc trees = rest ++ [b, a]
      ∧ HuffmanNode.step trees = rest ++ [HuffmanNode.Node a b]
      ∧ a.get_usage ≤ b.get_usage
      ∧ (∀ x ∈ rest, b.get_usage ≤ x.get_usage)
      ∧ (∀ x ∈ trees, a.get_usage ≤ x.get_usage) := by
  obtain ⟨a, b, rest2, hrev, hstep⟩ := HuffmanNode.step_shape trees h
  have hsort : HuffmanNode.sortDesc trees = rest2.reverse ++ [b, a] := by
    have h2 := congrArg List.reverse hrev
    rw [List.reverse_reverse] at h2
    rw [h2]
    simp [List.reverse_cons, List.append_assoc]
  have hstep2 : HuffmanNode.step trees
      = rest2.reverse ++ [HuffmanNode.Node a b] := by
    rw [hstep]
    simp [List.reverse_cons]
  have hsorted : List.Pairwise
      (fun x y => HuffmanNode.get_usage y ≤ HuffmanNode.get_usage x)
      (rest2.reverse ++ [b, a]) := by
    have := HuffmanNode.sortDesc_sorted trees
    rw [hsort] at this
    exact this
  rw [List.pairwise_append] at hsorted
  obtain ⟨hp1, hp2, hcross⟩ := hsorted
  have hab : a.get_usage ≤ b.get_usage :=
    List.rel_of_pairwise_cons hp2 (by simp)
  refine ⟨a, b, rest2.reverse, hsort, hstep2, hab, ?_, ?_⟩
  · intro x hx
    exact hcross x hx b (by simp)
  · intro x hx
    have hx2 : x ∈ rest2.reverse ++ [b, a] := by
      rw [← hsort]
      exact (HuffmanNode.sortDesc_perm trees).symm.mem_iff.mp hx
    rw [List.mem_append] at hx2
    rcases hx2 with hx2 | hx2
    · exact le_trans hab (hcross x hx2 b (by simp))
    · simp only [List.mem_cons, List.mem_singleton] at hx2
      rcases hx2 with rfl | rfl | hcontra
      · exact hab
      · exact le_refl _
      · simp at hcontra

/-- C10 witness: the merge orientation on a concrete three-tree collection
with pairwise distinct weights. -/
theorem claim10_witness :
    ∃ a b rest, HuffmanNode.sortDesc
        [HuffmanNode.Leaf 1 5, HuffmanNode.Leaf 2 3, HuffmanNode.Leaf 3 4]
        = rest ++ [b, a]
      ∧ HuffmanNode.step
          [HuffmanNode.Leaf 1 5, HuffmanNode.Leaf 2 3, HuffmanNode.Leaf 3 4]
          = rest ++ [HuffmanNode.Node a b]
      ∧ a.get_usage ≤ b.get_usage
      ∧ (∀ x ∈ rest, b.get_usage ≤ x.get_usage)
      ∧ (∀ x ∈ [HuffmanNode.Leaf 1 5, HuffmanNode.Leaf 2 3,
          HuffmanNode.Leaf 3 4], a.get_usage ≤ x.get_usage) :=
  claim10_merge_orientation
    [HuffmanNode.Leaf 1 5, HuffmanNode.Leaf 2 3, HuffmanNode.Leaf 3 4]
    (by decide)
